import Mathlib

/-
Verification of the texlab language-server core against its specification.

The development shallowly embeds the Rust sources of the repository:
pure functions become Lean functions, the salsa input store becomes an
explicit state record, and machine integers become Nat.  Components of
the repository that are not part of the analysed sources (the LaTeX and
BibTeX parsers, the url/petgraph/path libraries) are modelled from the
specification; every such definition is marked with a doc comment
starting with "Modelled from the spec:".
-/

set_option maxRecDepth 4000

/-! ## Basic data -/

/-- Interned document handle (src/db/document.rs, `Document(salsa::InternId)`).
Interning is a bijection between URIs and handles, so we identify a document
with its handle throughout. -/
abbrev Document := Nat

/-- Byte-offset text range, as used by rowan's TextRange. -/
structure TextRange where
  start : Nat
  stop : Nat
deriving DecidableEq, Repr

/-- `TextRange::empty(offset)`. -/
def TextRange.emptyAt (offset : Nat) : TextRange := ⟨offset, offset⟩

/-! ## String primitives

The Rust code uses `str::replace`, `str::starts_with`, `str::ends_with`.
We implement them on character lists by structural recursion so that all
definitions evaluate inside the kernel. -/

/-- One step bound by fuel: replace every non-overlapping occurrence of
`pat` in `s` by `rep`, scanning left to right (the semantics of Rust's
`str::replace`). -/
def replaceAllF : Nat → List Char → List Char → List Char → List Char
  | 0, _, _, s => s
  | _ + 1, _, _, [] => []
  | fuel + 1, pat, rep, c :: rest =>
    if pat ≠ [] ∧ pat.isPrefixOf (c :: rest) then
      rep ++ replaceAllF fuel pat rep ((c :: rest).drop pat.length)
    else
      c :: replaceAllF fuel pat rep rest

/-- Rust `str::replace`. -/
def rustReplace (s pat rep : String) : String :=
  (replaceAllF (s.length + 1) pat.toList rep.toList s.toList).asString

/-- Rust `str::starts_with(c: char)`. -/
def strStartsWithChar (s : String) (c : Char) : Bool :=
  s.toList.head? = some c

/-- Rust `str::ends_with(c: char)`. -/
def strEndsWithChar (s : String) (c : Char) : Bool :=
  s.toList.getLast? = some c

/-- Rust `str::ends_with(suffix: &str)`. -/
def strEndsWithStr (s suffix : String) : Bool :=
  suffix.toList.isSuffixOf s.toList

/-- Decimal rendering of a `Nat` (Rust `u32::to_string`), by fuel-bounded
division so that it evaluates inside the kernel. -/
def natDigits : Nat → Nat → List Char
  | 0, _ => []
  | _ + 1, 0 => []
  | fuel + 1, n =>
    natDigits fuel (n / 10) ++ [Char.ofNat (48 + n % 10)]

def natToString (n : Nat) : String :=
  if n = 0 then "0" else (natDigits (n + 1) n).asString

/-! ## C2 — forward-search placeholder expansion
(src/features/forward_search.rs, `replace_placeholder`) -/

/-- `replace_placeholder` from src/features/forward_search.rs lines 92-107.
`tex_file`/`pdf_file` stand for the `Path` arguments after `to_str`
(modelled as strings, so the conversion always succeeds); `line_number`
is the 0-based cursor line. -/
def replace_placeholder (tex_file pdf_file : String) (line_number : Nat)
    (argument : String) : Option String :=
  let result :=
    if strStartsWithChar argument '"' || strEndsWithChar argument '"' then
      argument
    else
      rustReplace (rustReplace (rustReplace argument "%f" tex_file)
        "%p" pdf_file) "%l" (natToString (line_number + 1))
  some result

/-- The substitution applied in the non-verbatim branch. -/
def substitutePlaceholders (tex_file pdf_file : String) (line_number : Nat)
    (argument : String) : String :=
  rustReplace (rustReplace (rustReplace argument "%f" tex_file)
    "%p" pdf_file) "%l" (natToString (line_number + 1))

/-- The spec's notion: an argument fully enclosed in double quotes. -/
def fullyQuoted (argument : String) : Bool :=
  strStartsWithChar argument '"' && strEndsWithChar argument '"'

/-! ## C6 — forward search with missing configuration
(src/features/forward_search.rs, `execute_forward_search`) -/

inductive ForwardSearchStatus where
  | success
  | error
  | failure
  | unconfigured
deriving DecidableEq, Repr

structure ForwardSearchResult where
  status : ForwardSearchStatus
deriving DecidableEq, Repr

/-- Modelled from the spec: the `forward_search` client options
(`{ executable, args }`, src/options.rs is not among the analysed files). -/
structure ForwardSearchOptions where
  executable : Option String
  args : Option (List String)

inductive ExplicitLinkKind where
  | package
  | class_
  | latex
  | bibtex
deriving DecidableEq, Repr

/-- `ExplicitLink` from src/db/analysis.rs (targets already interned). -/
structure ExplicitLink where
  stem : String
  stem_range : TextRange
  targets : List Document
  kind : ExplicitLinkKind

/-- `ExplicitLink::as_component_name` from src/db/analysis.rs. -/
def ExplicitLink.as_component_name (link : ExplicitLink) : Option String :=
  match link.kind with
  | .package => some (link.stem ++ ".sty")
  | .class_ => some (link.stem ++ ".cls")
  | .latex => none
  | .bibtex => none

/-- The database/environment observed by `execute_forward_search`: client
options, the document set, the per-document facts it reads, and oracles for
the filesystem and the spawned subprocess. -/
structure ForwardSearchEnv where
  options : ForwardSearchOptions
  allDocuments : List Document
  hasDocumentEnvironment : Document → Bool
  explicitLinks : Document → List ExplicitLink
  uriScheme : Document → String
  /-- `extras(root).implicit_links.pdf` after `Url::to_file_path`
  (`none` entries are conversion failures, dropped by `filter_map`). -/
  pdfFilePaths : Document → List (Option String)
  pathExists : String → Bool
  texFilePath : Document → Option String
  /-- Oracle for `run_process`: whether spawning succeeds. -/
  runProcessOk : String → List String → Bool

/-- `execute_forward_search` from src/features/forward_search.rs lines 30-90.
The second component records whether `run_process` was invoked. -/
def execute_forward_search (env : ForwardSearchEnv) (document : Document)
    (line : Nat) : Option ForwardSearchResult × Bool :=
  let options := env.options
  if options.executable.isNone || options.args.isNone then
    (some ⟨.unconfigured⟩, false)
  else
    let root? := (env.allDocuments.find? (fun d =>
        env.hasDocumentEnvironment d &&
          !((env.explicitLinks d).filterMap ExplicitLink.as_component_name).any
            (fun name => name = "subfiles.cls"))).filter
      (fun d => env.uriScheme d = "file")
    match root? with
    | none => (none, false)
    | some root =>
      match ((env.pdfFilePaths root).filterMap id).find? env.pathExists with
      | none => (none, false)
      | some pdf_path =>
        match env.texFilePath document with
        | none => (none, false)
        | some tex_path =>
          let args := (options.args.getD []).filterMap
            (replace_placeholder tex_path pdf_path line)
          if env.runProcessOk (options.executable.getD "") args then
            (some ⟨.success⟩, true)
          else
            (some ⟨.failure⟩, true)

/-! ### C2 theorems -/

/-- C2 as stated fails: the code passes an argument through verbatim when it
starts *or* ends with a double quote.  The argument consisting of a double
quote followed by `%l` is not fully enclosed in double quotes, yet `%l` is
not substituted. -/
theorem replace_placeholder_claim_counterexample :
    fullyQuoted "\"%l" = false ∧
      replace_placeholder "a.tex" "a.pdf" 0 "\"%l" ≠
        some (substitutePlaceholders "a.tex" "a.pdf" 0 "\"%l") := by
  decide

/-- C2 (amended): an argument is passed through verbatim exactly when it
starts or ends with a double quote; otherwise `%f`, `%p`, `%l` are
substituted (with the 1-based line number). -/
theorem replace_placeholder_amended (tex_file pdf_file : String)
    (line_number : Nat) (argument : String) :
    ((strStartsWithChar argument '"' || strEndsWithChar argument '"') = true →
        replace_placeholder tex_file pdf_file line_number argument =
          some argument) ∧
      ((strStartsWithChar argument '"' || strEndsWithChar argument '"') =
          false →
        replace_placeholder tex_file pdf_file line_number argument =
          some (substitutePlaceholders tex_file pdf_file line_number
            argument)) := by
  constructor
  · intro h
    simp only [replace_placeholder, h, if_true]
  · intro h
    simp only [replace_placeholder, substitutePlaceholders, h,
      Bool.false_eq_true, if_false]

/-- Witness for the amended C2 theorem at concrete inputs. -/
theorem replace_placeholder_amended_witness :
    replace_placeholder "a.tex" "a.pdf" 0 "\"x\"" = some "\"x\"" ∧
      replace_placeholder "a.tex" "a.pdf" 0 "%l" = some "1" := by
  constructor
  · exact (replace_placeholder_amended "a.tex" "a.pdf" 0 "\"x\"").1 (by decide)
  · have h := (replace_placeholder_amended "a.tex" "a.pdf" 0 "%l").2 (by decide)
    rw [h]
    decide

/-! ### C6 theorems -/

/-- C6: whenever the forward-search executable or argument list is
unconfigured, `execute_forward_search` returns status `UNCONFIGURED` for
every document and cursor line, and no subprocess is spawned. -/
theorem execute_forward_search_unconfigured (env : ForwardSearchEnv)
    (document : Document) (line : Nat)
    (h : env.options.executable = none ∨ env.options.args = none) :
    execute_forward_search env document line =
      (some ⟨ForwardSearchStatus.unconfigured⟩, false) := by
  have hcond : (env.options.executable.isNone || env.options.args.isNone) =
      true := by
    rcases h with h | h <;> simp [h]
  simp only [execute_forward_search, hcond, if_pos]

/-- Sample environment for the C6 witness. -/
def sampleFwdEnv : ForwardSearchEnv where
  options := ⟨none, some []⟩
  allDocuments := []
  hasDocumentEnvironment := fun _ => false
  explicitLinks := fun _ => []
  uriScheme := fun _ => "file"
  pdfFilePaths := fun _ => []
  pathExists := fun _ => false
  texFilePath := fun _ => none
  runProcessOk := fun _ _ => true

theorem execute_forward_search_unconfigured_witness :
    execute_forward_search sampleFwdEnv 0 0 =
      (some ⟨ForwardSearchStatus.unconfigured⟩, false) :=
  execute_forward_search_unconfigured sampleFwdEnv 0 0 (Or.inl rfl)

/-! ## Diagnostics data (lsp_types::Diagnostic, the fields the core sets) -/

inductive DiagnosticSeverity where
  | error
  | warning
deriving DecidableEq, Repr

structure Diagnostic where
  range : TextRange
  severity : DiagnosticSeverity
  code : Option Nat
  source : String
  message : String
deriving DecidableEq, Repr

/-! ## C1 — static BibTeX diagnostics
(src/db/diag/syntax.rs, `analyze_bibtex_static` / `analyze_entry` /
`analyze_field`) -/

/-- A token of the BibTeX tree with its byte range.  The diagnostics code
converts ranges through `line_index`; we keep the byte ranges, the
conversion being a per-document bijection on offsets. -/
structure BibToken where
  text : String
  range : TextRange
deriving DecidableEq, Repr

/-- Modelled from the spec: a BibTeX `Field` node at its accessor surface
(`name`, `equality_sign`, `value`); the BibTeX parser itself is not among
the analysed files, missing pieces are represented by `none` (§4.2). -/
structure BibField where
  name : Option BibToken
  equality_sign : Option BibToken
  /-- Range of the value node, when present. -/
  value : Option TextRange
deriving DecidableEq, Repr

/-- Modelled from the spec: a BibTeX `Entry` node at its accessor surface
(`ty`, `left_delimiter`, `key`, `right_delimiter`, fields); missing
delimiters and keys are represented structurally (§4.2). -/
structure BibEntry where
  ty : Option BibToken
  left_delimiter : Option BibToken
  key : Option BibToken
  right_delimiter : Option BibToken
  fields : List BibField
deriving DecidableEq, Repr

/-- A root-level node of the BibTeX tree: an entry, or any other node
(string command, preamble, comment) on which both `Entry::cast` and
`Field::cast` fail. -/
inductive BibRootNode where
  | entry (e : BibEntry)
  | other
deriving DecidableEq, Repr

/-- `analyze_entry` from src/db/diag/syntax.rs lines 152-211, including the
early exits of the `?` operator: a branch whose range accessor returns
`None` aborts without pushing.  Note that the third branch of the source
re-checks `entry.key().is_none()` (not `right_delimiter`), so the code-6
diagnostic below is unreachable. -/
def analyze_entry (entry : BibEntry) : List Diagnostic :=
  match entry.left_delimiter with
  | none =>
    match entry.ty with
    | none => []
    | some ty =>
      [⟨ty.range, .error, some 4, "texlab", "Expecting a curly bracket: \"\x7b\""⟩]
  | some left =>
    if entry.key.isNone then
      [⟨left.range, .error, some 5, "texlab", "Expecting a key"⟩]
    else if entry.key.isNone then
      match entry.right_delimiter with
      | none => []
      | some right =>
        [⟨right.range, .error, some 6, "texlab",
          "Expecting a curly bracket: \"\x7d\""⟩]
    else []

/-- `analyze_field` from src/db/diag/syntax.rs lines 213-255. -/
def analyze_field (field : BibField) : List Diagnostic :=
  match field.equality_sign with
  | none =>
    match field.name with
    | none => []
    | some name =>
      [⟨TextRange.emptyAt name.range.stop, .error, some 7, "texlab",
        "Expecting an equality sign: \"=\""⟩]
  | some eq =>
    if field.value.isNone then
      [⟨TextRange.emptyAt eq.range.stop, .error, some 8, "texlab",
        "Expecting a field value"⟩]
    else []

/-- `analyze_bibtex_static` from src/db/diag/syntax.rs lines 137-150: walk
all descendants in preorder; entry nodes go through `analyze_entry`, their
field children through `analyze_field`, every other node contributes
nothing. -/
def analyze_bibtex_static (tree : List BibRootNode) : List Diagnostic :=
  tree.flatMap fun n =>
    match n with
    | .entry e => analyze_entry e ++ e.fields.flatMap analyze_field
    | .other => []

/-- Modelled from the spec: the BibTeX parse of `"@article{foo,"` — an
entry with type token, left delimiter, key and a *missing* right delimiter
(§4.2, scenario 4). -/
def fooBibMissingRight : List BibRootNode :=
  [.entry ⟨some ⟨"@article", ⟨0, 8⟩⟩, some ⟨"\x7b", ⟨8, 9⟩⟩,
    some ⟨"foo", ⟨9, 12⟩⟩, none, []⟩]

/-- Modelled from the spec: the BibTeX parse of `"@article{foo,}\n"` — the
same entry with its right delimiter present. -/
def fooBibComplete : List BibRootNode :=
  [.entry ⟨some ⟨"@article", ⟨0, 8⟩⟩, some ⟨"\x7b", ⟨8, 9⟩⟩,
    some ⟨"foo", ⟨9, 12⟩⟩, some ⟨"\x7d", ⟨13, 14⟩⟩, []⟩]

/-- C1: evaluation of the code at the failing input.  The claim (and the
spec's scenario 4 and its diagnostic-code table) require exactly one
code-6 diagnostic for `"@article{foo,"`; the code returns *no* diagnostic,
because the branch that should test `right_delimiter().is_none()`
re-tests `key().is_none()` — contradicting that branch's own message and
diagnostic code.  The second input correctly yields no diagnostics. -/
theorem analyze_bibtex_static_missing_right_delimiter :
    (∃ e, fooBibMissingRight = [BibRootNode.entry e] ∧
        e.right_delimiter = none ∧ e.left_delimiter.isSome = true ∧
        e.key.isSome = true) ∧
      analyze_bibtex_static fooBibMissingRight = [] ∧
      analyze_bibtex_static fooBibComplete = [] := by
  refine ⟨⟨⟨some ⟨"@article", ⟨0, 8⟩⟩, some ⟨"\x7b", ⟨8, 9⟩⟩,
    some ⟨"foo", ⟨9, 12⟩⟩, none, []⟩, ?_⟩, ?_, ?_⟩ <;> decide

/-! ## The LaTeX concrete syntax tree
(rowan green tree as used by src/db/diag/syntax.rs and src/db/analysis.rs;
the parser producing it is not among the analysed files) -/

/-- The syntax kinds the analysed code inspects; every other kind is
`generic`. -/
inductive LatexKind where
  | environment
  | beginK
  | endK
  | key
  | curlyGroup
  | curlyGroupCommand
  | curlyGroupKeyValue
  | curlyGroupWord
  | curlyGroupWordList
  | error
  | lCurly
  | rCurly
  | word
  | generic
deriving DecidableEq, Repr

/-- Modelled from the spec: a lossless rowan tree — every byte of the
source is covered by tokens, inner nodes carry syntactic kinds, ranges
are byte offsets obtained by summing token lengths (§3, L1). -/
inductive LatexTree where
  | tok (kind : LatexKind) (text : String)
  | node (kind : LatexKind) (children : List LatexTree)

def LatexTree.kind : LatexTree → LatexKind
  | .tok k _ => k
  | .node k _ => k

def LatexTree.children : LatexTree → List LatexTree
  | .tok _ _ => []
  | .node _ cs => cs

mutual

/-- Total text length of a subtree (rowan: width of the green node). -/
def latexLen : LatexTree → Nat
  | .tok _ s => s.length
  | .node _ cs => latexLenList cs

def latexLenList : List LatexTree → Nat
  | [] => 0
  | t :: ts => latexLen t + latexLenList ts

end

/-- First child *node* (not token) of the given kind, together with its
start offset; `off` is the parent's start offset (rowan
`children().filter_map(Cast::cast).next()`). -/
def firstChildNodeOfKind (k : LatexKind) : Nat → List LatexTree → Option (LatexTree × Nat)
  | _, [] => none
  | off, t :: ts =>
    match t with
    | .tok _ s => firstChildNodeOfKind k (off + s.length) ts
    | .node k2 cs =>
      if k2 = k then some (.node k2 cs, off)
      else firstChildNodeOfKind k (off + latexLen (.node k2 cs)) ts

/-- Modelled from the spec: `Key::to_string` of the latex syntax crate —
the key's words joined by single blanks. -/
def keyText (t : LatexTree) : String :=
  String.intercalate " " (t.children.filterMap fun c =>
    match c with
    | .tok .word s => some s
    | _ => none)

/-- `environment.begin()?.name()?.key()?` with the key's start offset;
`off` is the environment node's start offset. -/
def envBeginKey (off : Nat) (t : LatexTree) : Option (LatexTree × Nat) := do
  let (b, boff) ← firstChildNodeOfKind .beginK off t.children
  let (nm, noff) ← firstChildNodeOfKind .curlyGroupWord boff b.children
  firstChildNodeOfKind .key noff nm.children

/-- `environment.end()?.name()?.key()?`. -/
def envEndKey (off : Nat) (t : LatexTree) : Option (LatexTree × Nat) := do
  let (e, eoff) ← firstChildNodeOfKind .endK off t.children
  let (nm, noff) ← firstChildNodeOfKind .curlyGroupWord eoff e.children
  firstChildNodeOfKind .key noff nm.children

/-- The name of an environment node, when the cast chain succeeds. -/
def envName (t : LatexTree) : Option String :=
  if t.kind = .environment then (envBeginKey 0 t).map (fun p => keyText p.1)
  else none

mutual

/-- rowan `SyntaxNode::first_token`: the leftmost token of the subtree. -/
def firstTokenText : LatexTree → Option String
  | .tok _ s => some s
  | .node _ cs => firstTokenTextList cs

def firstTokenTextList : List LatexTree → Option String
  | [] => none
  | t :: ts =>
    match firstTokenText t with
    | some s => some s
    | none => firstTokenTextList ts

end

/-- One step of the `descendants()` walk of `analyze_latex_static`: a node,
its ancestor chain (self first, as rowan's `ancestors()` yields), and its
byte range. -/
structure WalkEntry where
  node : LatexTree
  ancestors : List LatexTree
  start : Nat
  stop : Nat

mutual

/-- Preorder enumeration of the node descendants (tokens excluded), as
rowan's `descendants()` produces, tracking ancestors and offsets. -/
def walkTree (anc : List LatexTree) (off : Nat) : LatexTree → List WalkEntry
  | .tok _ _ => []
  | .node k cs =>
    ⟨.node k cs, .node k cs :: anc, off, off + latexLen (.node k cs)⟩ ::
      walkList (.node k cs :: anc) off cs

def walkList (anc : List LatexTree) (off : Nat) : List LatexTree → List WalkEntry
  | [] => []
  | t :: ts => walkTree anc off t ++ walkList anc (off + latexLen t) ts

end

/-! ## C7 / C8 — static LaTeX diagnostics
(src/db/diag/syntax.rs, `analyze_latex_static` / `analyze_environment` /
`analyze_curly_group`) -/

/-- Build-log error level (src/syntax/build_log, external to the analysed
files; only the shape is needed). -/
inductive BuildErrorLevel where
  | error
  | warning
deriving DecidableEq, Repr

/-- Modelled from the spec: `BuildError { level, message, optional line,
relative source path }` (§3, L1). -/
structure BuildError where
  level : BuildErrorLevel
  message : String
  line : Option Nat
  relative_path : String
deriving DecidableEq, Repr

/-- `SyntaxTree` from src/db/syntax.rs. -/
inductive SyntaxTree where
  | latex (root : LatexTree)
  | bibtex (root : List BibRootNode)
  | buildLog (errors : List BuildError)

/-- The five curly-group kinds matched by `analyze_curly_group`. -/
def curlyKind (k : LatexKind) : Bool :=
  k = .curlyGroup || k = .curlyGroupCommand || k = .curlyGroupKeyValue ||
    k = .curlyGroupWord || k = .curlyGroupWordList

/-- The `is_inside_verbatim_environment` computation of
`analyze_curly_group` (src/db/diag/syntax.rs lines 103-111): some ancestor
environment whose begin-name key reads `asy`, `lstlisting`, `minted` or
`verbatim`. -/
def is_inside_verbatim_environment (ancestors : List LatexTree) : Bool :=
  ancestors.any fun a =>
    match envName a with
    | some nm => ["asy", "lstlisting", "minted", "verbatim"].contains nm
    | none => false

/-- `children_with_tokens().filter_map(into_token).any(R_CURLY)`. -/
def hasRCurlyChild (t : LatexTree) : Bool :=
  t.children.any fun c =>
    match c with
    | .tok .rCurly _ => true
    | _ => false

/-- The code-2 diagnostic pushed by `analyze_curly_group` at end offset
`stop`. -/
def missingBraceDiag (stop : Nat) : Diagnostic :=
  ⟨TextRange.emptyAt stop, .error, some 2, "texlab", "Missing \"\x7d\" inserted"⟩

/-- `analyze_environment` from src/db/diag/syntax.rs lines 59-84.  The
`?` chain failing yields `none` without pushing.  The code-3 range is the
begin name key's range (its `small_range`; trailing trivia of a key is
immaterial here since keys end at their last word in the analysed claims). -/
def analyze_environment (e : WalkEntry) : Option (List Diagnostic) :=
  if e.node.kind = .environment then
    match envBeginKey e.start e.node, envEndKey e.start e.node with
    | some (k1, o1), some (k2, _) =>
      some (if keyText k1 ≠ keyText k2 then
        [⟨⟨o1, o1 + latexLen k1⟩, .error, some 3, "texlab",
          "Mismatched environment"⟩]
      else [])
    | _, _ => none
  else none

/-- `analyze_curly_group` from src/db/diag/syntax.rs lines 86-135. -/
def analyze_curly_group (e : WalkEntry) : Option (List Diagnostic) :=
  if curlyKind e.node.kind then
    some (if !is_inside_verbatim_environment e.ancestors &&
        !hasRCurlyChild e.node then
      [missingBraceDiag e.stop]
    else [])
  else none

/-- The closure for code 1 in `analyze_latex_static` lines 33-52: an error
node whose first token is a right curly. -/
def analyze_error_node (e : WalkEntry) : Option (List Diagnostic) :=
  if e.node.kind = .error then
    match firstTokenText e.node with
    | none => none
    | some s =>
      if s = "\x7d" then
        some [⟨⟨e.start, e.stop⟩, .error, some 1, "texlab",
          "Unexpected \"\x7d\""⟩]
      else none
  else none

/-- The `or_else` chain applied to one descendant. -/
def nodeDiags (e : WalkEntry) : List Diagnostic :=
  ((analyze_environment e).orElse fun _ =>
    (analyze_curly_group e).orElse fun _ => analyze_error_node e).getD []

/-- `analyze_latex_static` from src/db/diag/syntax.rs lines 15-57: skip
documents whose URI does not end in `.tex`, then walk all descendants in
preorder through the `or_else` chain. -/
def analyze_latex_static (uri : String) (tree : SyntaxTree) : List Diagnostic :=
  if !strEndsWithStr uri ".tex" then []
  else
    match tree with
    | .latex root => (walkTree [] 0 root).flatMap nodeDiags
    | _ => []

/-- C7: a document whose URI does not end in `.tex` gets no static LaTeX
diagnostics, whatever its contents. -/
theorem analyze_latex_static_non_tex (uri : String) (tree : SyntaxTree)
    (h : strEndsWithStr uri ".tex" = false) :
    analyze_latex_static uri tree = [] := by
  simp [analyze_latex_static, h]

/-- Witness for C7: a `.aux` URI with a tree that would otherwise produce a
code-2 diagnostic. -/
theorem analyze_latex_static_non_tex_witness :
    analyze_latex_static "foo.aux"
      (.latex (.node .generic [.node .curlyGroup [.tok .lCurly "\x7b"]])) =
      [] :=
  analyze_latex_static_non_tex "foo.aux"
    (.latex (.node .generic [.node .curlyGroup [.tok .lCurly "\x7b"]]))
    (by decide)

/-- The code-2 content of the `or_else` chain at a single node. -/
theorem nodeDiags_code2 (e : WalkEntry) :
    (nodeDiags e).filter (fun d => d.code == some 2) =
      (if curlyKind e.node.kind &&
          (!is_inside_verbatim_environment e.ancestors &&
            !hasRCurlyChild e.node) then
        [missingBraceDiag e.stop]
      else []) := by
  by_cases henv : e.node.kind = .environment
  · rcases hbk : envBeginKey e.start e.node with _ | ⟨k1, o1⟩ <;>
      rcases hek : envEndKey e.start e.node with _ | ⟨k2, o2⟩ <;>
        simp [nodeDiags, analyze_environment, analyze_curly_group,
          analyze_error_node, henv, hbk, hek, Option.orElse,
          (by decide : curlyKind LatexKind.environment = false)]
  · by_cases hcur : curlyKind e.node.kind = true
    · simp [nodeDiags, analyze_environment, analyze_curly_group, henv, hcur,
        Option.orElse]
      rintro a h1 h2 rfl
      rfl
    · have hck2 : curlyKind e.node.kind = false := by
        revert hcur
        cases curlyKind e.node.kind <;> simp
      by_cases herr2 : e.node.kind = .error
      · rcases hft : firstTokenText e.node with _ | s
        · simp [nodeDiags, analyze_environment, analyze_curly_group,
            analyze_error_node, henv, hck2, herr2, hft, Option.orElse,
            (by decide : curlyKind LatexKind.error = false)]
        · by_cases hs : s = "\x7d"
          · simp [nodeDiags, analyze_environment, analyze_curly_group,
              analyze_error_node, henv, hck2, herr2, hft, hs, Option.orElse,
              (by decide : curlyKind LatexKind.error = false)]
          · simp [nodeDiags, analyze_environment, analyze_curly_group,
              analyze_error_node, henv, hck2, herr2, hft, hs, Option.orElse,
              (by decide : curlyKind LatexKind.error = false)]
      · simp [nodeDiags, analyze_environment, analyze_curly_group,
          analyze_error_node, henv, hck2, herr2, Option.orElse]

/-- Code-2 content of a whole walk. -/
theorem flatMap_nodeDiags_code2 (l : List WalkEntry) :
    (l.flatMap nodeDiags).filter (fun d => d.code == some 2) =
      (l.filter (fun e => curlyKind e.node.kind &&
          (!is_inside_verbatim_environment e.ancestors &&
            !hasRCurlyChild e.node))).map (fun e => missingBraceDiag e.stop) := by
  induction l with
  | nil => rfl
  | cons e t ih =>
    rw [List.flatMap_cons, List.filter_append, nodeDiags_code2, ih,
      List.filter_cons]
    by_cases hc : (curlyKind e.node.kind &&
        (!is_inside_verbatim_environment e.ancestors &&
          !hasRCurlyChild e.node)) = true
    · simp [hc]
    · rw [if_neg hc, if_neg hc]
      simp

/-- C8: for a `.tex` document, the code-2 diagnostics of the static LaTeX
analysis are exactly one diagnostic per curly-group descendant that lacks
a right-curly child token and has no enclosing `asy`/`lstlisting`/
`minted`/`verbatim` environment, with an empty range at the node's end
offset. -/
theorem analyze_latex_static_code2 (uri : String) (root : LatexTree)
    (h : strEndsWithStr uri ".tex" = true) :
    (analyze_latex_static uri (.latex root)).filter
        (fun d => d.code == some 2) =
      ((walkTree [] 0 root).filter (fun e => curlyKind e.node.kind &&
          (!is_inside_verbatim_environment e.ancestors &&
            !hasRCurlyChild e.node))).map
        (fun e => missingBraceDiag e.stop) := by
  rw [analyze_latex_static, h]
  exact flatMap_nodeDiags_code2 _

/-- Witness for C8: `\x7bx` inside a `verbatim` environment produces no
code-2 diagnostic, while a bare unclosed group produces one at its end
offset. -/
theorem analyze_latex_static_code2_witness :
    (analyze_latex_static "a.tex"
        (.latex (.node .generic [.node .curlyGroup [.tok .lCurly "\x7b",
          .tok .word "x"]]))).filter (fun d => d.code == some 2) =
      [missingBraceDiag 2] := by
  rw [analyze_latex_static_code2 "a.tex" _ (by decide)]
  decide

/-! ## C3 — populated inputs invariant
(src/db.rs `upsert_document` / `insert_hidden_document` / `expand_parent` /
`expand_children`, src/server.rs `did_open` / `did_change` /
`did_change_watched_files`) -/

inductive DocumentLanguage where
  | latex
  | bibtex
  | buildLog
deriving DecidableEq, Repr

inductive DocumentVisibility where
  | visible
  | hidden
deriving DecidableEq, Repr

/-- The salsa input layer of `RootDatabase` restricted to the per-document
inputs: the document set plus the three per-document inputs.  An input that
was never set is `none` (reading it in salsa would panic). -/
structure DbState where
  allDocuments : List Document
  source_code : Document → Option String
  language : Document → Option DocumentLanguage
  visibility : Document → Option DocumentVisibility

def DbState.setSourceCode (st : DbState) (d : Document) (s : String) : DbState :=
  { st with source_code := fun x => if x = d then some s else st.source_code x }

def DbState.setLanguage (st : DbState) (d : Document)
    (l : DocumentLanguage) : DbState :=
  { st with language := fun x => if x = d then some l else st.language x }

def DbState.setVisibility (st : DbState) (d : Document)
    (v : DocumentVisibility) : DbState :=
  { st with visibility := fun x => if x = d then some v else st.visibility x }

/-- `all_documents.insert(document)` (im::HashSet insert, membership only). -/
def DbState.insertDocument (st : DbState) (d : Document) : DbState :=
  { st with allDocuments :=
      if d ∈ st.allDocuments then st.allDocuments else d :: st.allDocuments }

/-- One hidden-document insertion attempt during `expand_parent` /
`expand_children`: the interned handle of the path, the result of
`std::fs::read` plus `DocumentLanguage::by_path` (`none` = I/O error, whose
`Err` the callers discard), and the nested insertions performed by the
recursive `upsert_document` call's own expansion. -/
inductive HiddenIns where
  | mk (doc : Document) (read : Option (String × DocumentLanguage))
    (sub : List HiddenIns)

def HiddenIns.doc : HiddenIns → Document
  | .mk d _ _ => d

/-- The non-expanding part of `upsert_document` (src/db.rs lines 77-82):
set source code and language, insert into the document set. -/
def upsert_base (st : DbState) (d : Document) (src : String)
    (lang : DocumentLanguage) : DbState :=
  ((st.setSourceCode d src).setLanguage d lang).insertDocument d

mutual

/-- `insert_hidden_document` (src/db.rs lines 88-102): no-op when the handle
is already in the set, no-op when the filesystem read fails, otherwise set
visibility Hidden and upsert (whose expansion performs the nested
insertions). -/
def insert_hidden_document (st : DbState) : HiddenIns → DbState
  | .mk doc read sub =>
    if doc ∈ st.allDocuments then st
    else
      match read with
      | none => st
      | some (src, lang) =>
        insert_hidden_list (upsert_base (st.setVisibility doc .hidden)
          doc src lang) sub

/-- The sequence of `insert_hidden_document` calls a single
`expand_parent` + `expand_children` run performs. -/
def insert_hidden_list (st : DbState) : List HiddenIns → DbState
  | [] => st
  | op :: ops => insert_hidden_list (insert_hidden_document st op) ops

end

/-- `upsert_document` (src/db.rs lines 71-86): base update followed by the
filesystem expansion, whose observable effect on the store is a sequence of
hidden-document insertions. -/
def upsert_document (st : DbState) (d : Document) (src : String)
    (lang : DocumentLanguage) (expansion : List HiddenIns) : DbState :=
  insert_hidden_list (upsert_base st d src lang) expansion

/-- `did_open` (src/server.rs lines 366-389): upsert the opened document,
then set its visibility Visible. -/
def did_open (st : DbState) (d : Document) (src : String)
    (lang : DocumentLanguage) (expansion : List HiddenIns) : DbState :=
  (upsert_document st d src lang expansion).setVisibility d .visible

/-- The CREATED/CHANGED arm of `did_change_watched_files`
(src/server.rs lines 326-331): hidden insertion, then visibility Visible. -/
def watched_file_created_or_changed (st : DbState) (op : HiddenIns) : DbState :=
  (insert_hidden_document st op).setVisibility op.doc .visible

/-- Invariant I1: every member of the document set has its `source_code`,
`language` and `visibility` inputs populated. -/
def inputsPopulated (st : DbState) : Prop :=
  ∀ d ∈ st.allDocuments, (st.source_code d).isSome = true ∧
    (st.language d).isSome = true ∧ (st.visibility d).isSome = true

/-- Generalised invariant: populated, except that the document `e` (when
given) may still lack its visibility input — the state in the middle of a
`did_open`. -/
def populatedE (e : Option Document) (st : DbState) : Prop :=
  ∀ d ∈ st.allDocuments, (st.source_code d).isSome = true ∧
    (st.language d).isSome = true ∧
      (e = some d ∨ (st.visibility d).isSome = true)

theorem populatedE_none_iff (st : DbState) :
    populatedE none st ↔ inputsPopulated st := by
  constructor <;> intro h d hd <;> rcases h d hd with ⟨h1, h2, h3⟩
  · exact ⟨h1, h2, h3.resolve_left (by simp)⟩
  · exact ⟨h1, h2, Or.inr h3⟩

theorem populatedE_mono (e : Option Document) (st : DbState)
    (h : inputsPopulated st) : populatedE e st := by
  intro d hd
  rcases h d hd with ⟨h1, h2, h3⟩
  exact ⟨h1, h2, Or.inr h3⟩

theorem setVisibility_populatedE (e : Option Document) (st : DbState)
    (d : Document) (v : DocumentVisibility) (h : populatedE e st) :
    populatedE e (st.setVisibility d v) := by
  intro x hx
  rcases h x hx with ⟨h1, h2, h3⟩
  refine ⟨h1, h2, ?_⟩
  rcases h3 with h3 | h3
  · exact Or.inl h3
  · right
    simp only [DbState.setVisibility]
    split <;> simp [h3]

theorem upsert_base_populatedE (e : Option Document) (st : DbState)
    (d : Document) (src : String) (lang : DocumentLanguage)
    (h : populatedE e st)
    (hv : e = some d ∨ (st.visibility d).isSome = true) :
    populatedE e (upsert_base st d src lang) := by
  intro x hx
  have hmem : (upsert_base st d src lang).allDocuments =
      if d ∈ st.allDocuments then st.allDocuments
      else d :: st.allDocuments := rfl
  have hx2 : x = d ∨ x ∈ st.allDocuments := by
    rw [hmem] at hx
    by_cases hd : d ∈ st.allDocuments
    · rw [if_pos hd] at hx
      exact Or.inr hx
    · rw [if_neg hd] at hx
      rcases List.mem_cons.mp hx with hx | hx
      · exact Or.inl hx
      · exact Or.inr hx
  have hsrc : (upsert_base st d src lang).source_code x =
      if x = d then some src else st.source_code x := rfl
  have hlang : (upsert_base st d src lang).language x =
      if x = d then some lang else st.language x := rfl
  have hvis : (upsert_base st d src lang).visibility x = st.visibility x := rfl
  rcases hx2 with rfl | hx2
  · refine ⟨by simp [hsrc], by simp [hlang], ?_⟩
    rw [hvis]
    exact hv
  · rcases h x hx2 with ⟨h1, h2, h3⟩
    refine ⟨?_, ?_, ?_⟩
    · rw [hsrc]
      split <;> simp [h1]
    · rw [hlang]
      split <;> simp [h2]
    · rw [hvis]
      exact h3

mutual

theorem insert_hidden_populatedE (e : Option Document) (st : DbState)
    (op : HiddenIns) (h : populatedE e st) :
    populatedE e (insert_hidden_document st op) := by
  rcases op with ⟨doc, read, sub⟩
  simp only [insert_hidden_document]
  split
  · exact h
  · rcases read with _ | ⟨src, lang⟩
    · exact h
    · refine insert_hidden_list_populatedE e _ sub ?_
      refine upsert_base_populatedE e _ doc src lang
        (setVisibility_populatedE e st doc .hidden h) (Or.inr ?_)
      simp [DbState.setVisibility]

theorem insert_hidden_list_populatedE (e : Option Document) (st : DbState)
    (ops : List HiddenIns) (h : populatedE e st) :
    populatedE e (insert_hidden_list st ops) := by
  match ops with
  | [] =>
    rw [insert_hidden_list]
    exact h
  | op :: rest =>
    rw [insert_hidden_list]
    exact insert_hidden_list_populatedE e _ rest
      (insert_hidden_populatedE e st op h)

end

theorem setVisibility_closes (st : DbState) (d : Document)
    (h : populatedE (some d) st) :
    inputsPopulated (st.setVisibility d .visible) := by
  intro x hx
  rcases h x hx with ⟨h1, h2, h3⟩
  refine ⟨h1, h2, ?_⟩
  simp only [DbState.setVisibility]
  split
  · simp
  · next hne =>
    rcases h3 with h3 | h3
    · simp only [Option.some.injEq] at h3
      exact absurd h3.symm hne
    · exact h3

/-- C3: after an editor open, after a watched-file create/change, and after
a bare hidden-document insertion (parent/child expansion, unknown document
in `did_change`), every member of the document set has populated
`source_code`, `language` and `visibility` inputs. -/
theorem document_inputs_populated :
    (∀ st d src lang expansion, inputsPopulated st →
        inputsPopulated (did_open st d src lang expansion)) ∧
      (∀ st op, inputsPopulated st →
        inputsPopulated (watched_file_created_or_changed st op)) ∧
      (∀ st op, inputsPopulated st →
        inputsPopulated (insert_hidden_document st op)) := by
  refine ⟨?_, ?_, ?_⟩
  · intro st d src lang expansion h
    refine setVisibility_closes _ d ?_
    refine insert_hidden_list_populatedE (some d) _ expansion ?_
    exact upsert_base_populatedE (some d) st d src lang
      (populatedE_mono _ _ h) (Or.inl rfl)
  · intro st op h
    refine setVisibility_closes _ op.doc ?_
    exact insert_hidden_populatedE (some op.doc) st op (populatedE_mono _ _ h)
  · intro st op h
    rw [← populatedE_none_iff]
    exact insert_hidden_populatedE none st op
      ((populatedE_none_iff st).mpr h)

/-- Witness for C3 at a concrete state and operations. -/
theorem document_inputs_populated_witness :
    inputsPopulated (did_open ⟨[], fun _ => none, fun _ => none,
        fun _ => none⟩ 0 "x" .latex
      [.mk 1 (some ("y", .latex)) [], .mk 2 none []]) ∧
      inputsPopulated (watched_file_created_or_changed
        ⟨[], fun _ => none, fun _ => none, fun _ => none⟩
        (.mk 3 (some ("z", .buildLog)) [])) ∧
      inputsPopulated (insert_hidden_document
        ⟨[], fun _ => none, fun _ => none, fun _ => none⟩
        (.mk 4 (some ("w", .bibtex)) [])) :=
  ⟨document_inputs_populated.1 _ 0 "x" .latex _ (by intro d hd; cases hd),
    document_inputs_populated.2.1 _ _ (by intro d hd; cases hd),
    document_inputs_populated.2.2 _ _ (by intro d hd; cases hd)⟩

/-! ## Depth-first search (petgraph `Dfs`, as used by `compilation_unit`)

petgraph's `Dfs::next` pops a node from the stack; a node not yet
discovered is marked, emitted, and its not-yet-discovered neighbors are
pushed in order (so the last neighbor surfaces first).  The emitted list
equals the discovered set in visit order.  The `n ∉ univ` guard is dead
code in all uses below — every stack element is a graph node — and only
serves the termination measure. -/

theorem filter_not_mem_append_lt (univ visited : List Nat) (n : Nat)
    (hn : n ∈ univ) (hnv : n ∉ visited) :
    (univ.filter (fun m => decide (m ∉ visited ++ [n]))).length <
      (univ.filter (fun m => decide (m ∉ visited))).length := by
  have hsub : List.Sublist
      (univ.filter (fun m => decide (m ∉ visited ++ [n])))
      (univ.filter (fun m => decide (m ∉ visited))) := by
    apply List.monotone_filter_right
    intro a ha
    simp only [decide_eq_true_eq] at ha ⊢
    intro hmem
    exact ha (List.mem_append_left _ hmem)
  rcases Nat.lt_or_ge
      (univ.filter (fun m => decide (m ∉ visited ++ [n]))).length
      (univ.filter (fun m => decide (m ∉ visited))).length with h | h
  · exact h
  · exfalso
    have heq := hsub.eq_of_length (Nat.le_antisymm hsub.length_le h)
    have h1 : n ∈ univ.filter (fun m => decide (m ∉ visited)) := by
      simp [List.mem_filter, hn, hnv]
    rw [← heq] at h1
    simp [List.mem_filter] at h1

def dfs (univ : List Nat) (adj : Nat → List Nat) :
    List Nat → List Nat → List Nat
  | [], visited => visited
  | n :: rest, visited =>
    if n ∈ visited ∨ n ∉ univ then dfs univ adj rest visited
    else
      dfs univ adj
        (((adj n).filter (fun m => decide (m ∉ n :: visited))).reverse ++ rest)
        (visited ++ [n])
termination_by stack visited =>
  ((univ.filter (fun m => decide (m ∉ visited))).length, stack.length)
decreasing_by
  · apply Prod.Lex.right
    simp
  · apply Prod.Lex.left
    rename_i h
    push_neg at h
    exact filter_not_mem_append_lt univ visited n h.2 h.1

theorem dfs_nil (univ : List Nat) (adj : Nat → List Nat) (visited : List Nat) :
    dfs univ adj [] visited = visited := by
  rw [dfs]

theorem dfs_skip (univ : List Nat) (adj : Nat → List Nat) (n : Nat)
    (rest visited : List Nat) (h : n ∈ visited ∨ n ∉ univ) :
    dfs univ adj (n :: rest) visited = dfs univ adj rest visited := by
  rw [dfs, if_pos h]

theorem dfs_visit (univ : List Nat) (adj : Nat → List Nat) (n : Nat)
    (rest visited : List Nat) (h1 : n ∉ visited) (h2 : n ∈ univ) :
    dfs univ adj (n :: rest) visited =
      dfs univ adj
        (((adj n).filter (fun m => decide (m ∉ n :: visited))).reverse ++ rest)
        (visited ++ [n]) := by
  rw [dfs, if_neg (by simp [h1, h2])]

theorem dfs_visited_sub (univ : List Nat) (adj : Nat → List Nat) :
    ∀ stack visited, ∀ x ∈ visited, x ∈ dfs univ adj stack visited := by
  intro stack visited
  induction stack, visited using dfs.induct univ adj with
  | case1 visited =>
    intro x hx
    rw [dfs_nil]
    exact hx
  | case2 n rest visited h ih =>
    intro x hx
    rw [dfs_skip _ _ _ _ _ h]
    exact ih x hx
  | case3 n rest visited h ih =>
    push_neg at h
    intro x hx
    rw [dfs_visit _ _ _ _ _ h.1 h.2]
    exact ih x (List.mem_append_left _ hx)

theorem dfs_stack_mem (univ : List Nat) (adj : Nat → List Nat) :
    ∀ stack visited, ∀ x ∈ stack, x ∈ univ →
      x ∈ dfs univ adj stack visited := by
  intro stack visited
  induction stack, visited using dfs.induct univ adj with
  | case1 visited =>
    intro x hx
    exact absurd hx (List.not_mem_nil x)
  | case2 n rest visited h ih =>
    intro x hx hxu
    rw [dfs_skip _ _ _ _ _ h]
    rcases List.mem_cons.mp hx with rfl | hx
    · rcases h with h | h
      · exact dfs_visited_sub univ adj rest visited x h
      · exact absurd hxu h
    · exact ih x hx hxu
  | case3 n rest visited h ih =>
    push_neg at h
    intro x hx hxu
    rw [dfs_visit _ _ _ _ _ h.1 h.2]
    rcases List.mem_cons.mp hx with rfl | hx
    · exact dfs_visited_sub univ adj _ _ x
        (List.mem_append_right _ (List.mem_singleton.mpr rfl))
    · exact ih x (List.mem_append_right _ hx) hxu

theorem dfs_sound (univ : List Nat) (adj : Nat → List Nat) (P : Nat → Prop)
    (hP : ∀ a b, P a → b ∈ adj a → P b) :
    ∀ stack visited, (∀ v ∈ visited, P v) → (∀ s ∈ stack, P s) →
      ∀ x ∈ dfs univ adj stack visited, P x := by
  intro stack visited
  induction stack, visited using dfs.induct univ adj with
  | case1 visited =>
    intro hv _ x hx
    rw [dfs_nil] at hx
    exact hv x hx
  | case2 n rest visited h ih =>
    intro hv hs x hx
    rw [dfs_skip _ _ _ _ _ h] at hx
    exact ih hv (fun s hs2 => hs s (List.mem_cons_of_mem n hs2)) x hx
  | case3 n rest visited h ih =>
    push_neg at h
    intro hv hs x hx
    rw [dfs_visit _ _ _ _ _ h.1 h.2] at hx
    have hPn : P n := hs n (List.mem_cons_self n rest)
    refine ih ?_ ?_ x hx
    · intro v hvmem
      rcases List.mem_append.mp hvmem with hvmem | hvmem
      · exact hv v hvmem
      · rw [List.mem_singleton.mp hvmem]
        exact hPn
    · intro s hs2
      rcases List.mem_append.mp hs2 with hs2 | hs2
      · rw [List.mem_reverse] at hs2
        exact hP n s hPn (List.mem_of_mem_filter hs2)
      · exact hs s (List.mem_cons_of_mem n hs2)

theorem dfs_closed (univ : List Nat) (adj : Nat → List Nat) :
    ∀ stack visited,
      (∀ v ∈ visited, ∀ m ∈ adj v, m ∈ univ → m ∈ visited ∨ m ∈ stack) →
      ∀ x ∈ dfs univ adj stack visited, ∀ m ∈ adj x, m ∈ univ →
        m ∈ dfs univ adj stack visited := by
  intro stack visited
  induction stack, visited using dfs.induct univ adj with
  | case1 visited =>
    intro hinv x hx m hm hmu
    rw [dfs_nil] at hx ⊢
    rcases hinv x hx m hm hmu with h | h
    · exact h
    · exact absurd h (List.not_mem_nil m)
  | case2 n rest visited h ih =>
    intro hinv x hx m hm hmu
    rw [dfs_skip _ _ _ _ _ h] at hx ⊢
    refine ih ?_ x hx m hm hmu
    intro v hv m2 hm2 hm2u
    rcases hinv v hv m2 hm2 hm2u with h2 | h2
    · exact Or.inl h2
    · rcases List.mem_cons.mp h2 with rfl | h2
      · rcases h with h | h
        · exact Or.inl h
        · exact absurd hm2u h
      · exact Or.inr h2
  | case3 n rest visited h ih =>
    push_neg at h
    intro hinv x hx m hm hmu
    rw [dfs_visit _ _ _ _ _ h.1 h.2] at hx ⊢
    refine ih ?_ x hx m hm hmu
    intro v hv m2 hm2 hm2u
    rcases List.mem_append.mp hv with hv | hv
    · rcases hinv v hv m2 hm2 hm2u with h2 | h2
      · exact Or.inl (List.mem_append_left _ h2)
      · rcases List.mem_cons.mp h2 with rfl | h2
        · exact Or.inl (List.mem_append_right _ (List.mem_singleton.mpr rfl))
        · exact Or.inr (List.mem_append_right _ h2)
    · have hveq : v = n := List.mem_singleton.mp hv
      rw [hveq] at hm2
      by_cases hmv : m2 ∈ n :: visited
      · rcases List.mem_cons.mp hmv with rfl | hmv
        · exact Or.inl (List.mem_append_right _ (List.mem_singleton.mpr rfl))
        · exact Or.inl (List.mem_append_left _ hmv)
      · refine Or.inr (List.mem_append_left _ ?_)
        rw [List.mem_reverse]
        exact List.mem_filter.mpr ⟨hm2, by simpa using hmv⟩

/-- Membership in the emitted list of a DFS from `start` is reachability
along the adjacency relation. -/
theorem dfs_mem_iff (univ : List Nat) (adj : Nat → List Nat)
    (hadj : ∀ a b, b ∈ adj a → b ∈ univ) (start : Nat) (hs : start ∈ univ)
    (x : Nat) :
    x ∈ dfs univ adj [start] [] ↔
      Relation.ReflTransGen (fun a b => b ∈ adj a) start x := by
  constructor
  · intro hx
    refine dfs_sound univ adj
      (Relation.ReflTransGen (fun a b => b ∈ adj a) start) ?_ [start] []
      (fun v hv => absurd hv (List.not_mem_nil v)) ?_ x hx
    · intro a b ha hb
      exact ha.tail hb
    · intro s hs2
      have hseq : s = start := List.mem_singleton.mp hs2
      subst hseq
      exact Relation.ReflTransGen.refl
  · intro hr
    induction hr with
    | refl =>
      exact dfs_stack_mem univ adj [start] [] start
        (List.mem_singleton.mpr rfl) hs
    | tail hab hbc ih =>
      exact dfs_closed univ adj [start] []
        (fun v hv => absurd hv (List.not_mem_nil v)) _ ih _ hbc
        (hadj _ _ hbc)

/-! ## C5 / C9 — workspace graph
(src/db/workspace.rs, `compilation_unit` / `find_parent`) -/

/-- `Vec::position` / `Iterator::position`. -/
def listPosition : List Document → Document → Option Nat
  | [], _ => none
  | x :: xs, d =>
    if x = d then some 0
    else
      match listPosition xs d with
      | some i => some (i + 1)
      | none => none

theorem listPosition_isSome_iff (l : List Document) (d : Document) :
    (listPosition l d).isSome = true ↔ d ∈ l := by
  induction l with
  | nil => simp [listPosition]
  | cons x xs ih =>
    by_cases hx : x = d
    · simp [listPosition, hx]
    · rw [listPosition, if_neg hx]
      cases hlp : listPosition xs d with
      | none =>
        rw [hlp] at ih
        simp only [Option.isSome_none, Bool.false_eq_true, false_iff] at ih ⊢
        simp only [List.mem_cons, not_or]
        exact ⟨fun h => hx h.symm, ih⟩
      | some i =>
        rw [hlp] at ih
        simp only [Option.isSome_some, true_iff] at ih
        simp [List.mem_cons, ih]

theorem listPosition_lt (l : List Document) (d : Document) (i : Nat)
    (h : listPosition l d = some i) : i < l.length := by
  induction l generalizing i with
  | nil => simp [listPosition] at h
  | cons x xs ih =>
    by_cases hx : x = d
    · simp only [listPosition, if_pos hx, Option.some.injEq] at h
      simp [← h]
    · rw [listPosition, if_neg hx] at h
      cases hlp : listPosition xs d with
      | none =>
        rw [hlp] at h
        exact absurd h (by simp)
      | some j =>
        rw [hlp] at h
        simp only [Option.some.injEq] at h
        have := ih j hlp
        simp only [List.length_cons]
        omega

theorem listPosition_getD (l : List Document) (d : Document) (i : Nat)
    (h : listPosition l d = some i) : l.getD i 0 = d := by
  induction l generalizing i with
  | nil => simp [listPosition] at h
  | cons x xs ih =>
    by_cases hx : x = d
    · simp only [listPosition, if_pos hx, Option.some.injEq] at h
      simp [← h, hx]
    · rw [listPosition, if_neg hx] at h
      cases hlp : listPosition xs d with
      | none =>
        rw [hlp] at h
        exact absurd h (by simp)
      | some j =>
        rw [hlp] at h
        simp only [Option.some.injEq] at h
        rw [← h]
        simpa using ih j hlp

theorem listPosition_getD_nodup (l : List Document) (hnd : l.Nodup)
    (i : Nat) (hi : i < l.length) : listPosition l (l.getD i 0) = some i := by
  induction l generalizing i with
  | nil => simp at hi
  | cons x xs ih =>
    rcases List.nodup_cons.mp hnd with ⟨hx, hxs⟩
    match i with
    | 0 => simp [listPosition]
    | j + 1 =>
      have hj : j < xs.length := by
        simp only [List.length_cons] at hi
        omega
      have hget : (x :: xs).getD (j + 1) 0 = xs.getD j 0 := by simp
      have hne : x ≠ xs.getD j 0 := by
        intro heq
        apply hx
        rw [heq]
        rw [List.getD_eq_getElem xs 0 hj]
        exact List.getElem_mem hj
      rw [hget, listPosition, if_neg hne, ih hxs j hj]

/-- The slice of `RootDatabase` that `compilation_unit`, `find_parent` and
`ProjectOrdering` observe.  `auxTargets`/`logTargets` are the interned
results of `linked_auxiliary_files(d, Aux/Log)` (their URL construction
lives in the external url crate); `explicitLinks` and
`hasDocumentEnvironment` come from `extras(d)`. -/
structure WorkspaceState where
  allDocuments : List Document
  auxTargets : Document → List Document
  logTargets : Document → List Document
  explicitLinks : Document → List ExplicitLink
  hasDocumentEnvironment : Document → Bool

/-- The `all_targets` vector of `compilation_unit`
(src/db/workspace.rs lines 95-102): aux targets, log targets, then each
explicit link's targets. -/
def allTargetLists (st : WorkspaceState) (d : Document) :
    List (List Document) :=
  st.auxTargets d :: st.logTargets d :: (st.explicitLinks d).map (·.targets)

/-- The edge list of `compilation_unit` (src/db/workspace.rs lines 91-112):
for document `i` and each target list, an edge `(i, j)` to the first target
present in the document set. -/
def unitEdges (st : WorkspaceState) : List (Nat × Nat) :=
  (List.range st.allDocuments.length).flatMap fun i =>
    (allTargetLists st (st.allDocuments.getD i 0)).filterMap fun targets =>
      (targets.findSome? fun t => listPosition st.allDocuments t).map
        fun j => (i, j)

/-- petgraph `GraphMap::add_edge`: an already-present edge (in either
direction) is not duplicated. -/
def addEdgeOnce (acc : List (Nat × Nat)) (e : Nat × Nat) : List (Nat × Nat) :=
  if e ∈ acc ∨ (e.2, e.1) ∈ acc then acc else acc ++ [e]

/-- `UnGraphMap::from_edges`. -/
def dedupEdges (edges : List (Nat × Nat)) : List (Nat × Nat) :=
  edges.foldl addEdgeOnce []

/-- `GraphMap::neighbors(n)` of the undirected graph: for each stored edge
touching `n`, the opposite endpoint (a self loop contributes `n` once). -/
def neighborsOf (edges : List (Nat × Nat)) (n : Nat) : List Nat :=
  (dedupEdges edges).flatMap fun e =>
    if e.1 = n then [e.2] else if e.2 = n then [e.1] else []

theorem mem_neighborsOf_iff (edges : List (Nat × Nat)) (n m : Nat) :
    m ∈ neighborsOf edges n ↔
      (n, m) ∈ dedupEdges edges ∨ (m, n) ∈ dedupEdges edges := by
  simp only [neighborsOf, List.mem_flatMap]
  constructor
  · rintro ⟨e, he, hm⟩
    split_ifs at hm with h1 h2
    · left
      have : e = (n, m) := by
        rcases e with ⟨a, b⟩
        simp only at h1
        simp only [List.mem_singleton] at hm
        simp [h1, hm.symm]
      rw [← this]
      exact he
    · right
      have : e = (m, n) := by
        rcases e with ⟨a, b⟩
        simp only at h2
        simp only [List.mem_singleton] at hm
        simp [h2, hm.symm]
      rw [← this]
      exact he
    · exact absurd hm (List.not_mem_nil m)
  · rintro (h | h)
    · refine ⟨(n, m), h, ?_⟩
      simp
    · refine ⟨(m, n), h, ?_⟩
      by_cases hmn : m = n
      · simp [hmn]
      · simp [hmn]

theorem foldl_addEdgeOnce_mem (l : List (Nat × Nat)) :
    ∀ (acc : List (Nat × Nat)) (e), e ∈ l.foldl addEdgeOnce acc →
      e ∈ acc ∨ e ∈ l := by
  induction l with
  | nil =>
    intro acc e he
    exact Or.inl he
  | cons x xs ih =>
    intro acc e he
    rcases ih (addEdgeOnce acc x) e he with h | h
    · unfold addEdgeOnce at h
      split at h
      · exact Or.inl h
      · rcases List.mem_append.mp h with h | h
        · exact Or.inl h
        · exact Or.inr (List.mem_cons.mpr (Or.inl (List.mem_singleton.mp h)))
    · exact Or.inr (List.mem_cons_of_mem x h)

theorem dedupEdges_sub (edges : List (Nat × Nat)) :
    ∀ e ∈ dedupEdges edges, e ∈ edges := by
  intro e he
  rcases foldl_addEdgeOnce_mem edges [] e he with h | h
  · exact absurd h (List.not_mem_nil e)
  · exact h

theorem exists_of_listFindSome (f : Document → Option Nat) :
    ∀ (l : List Document) (b : Nat), l.findSome? f = some b →
      ∃ a ∈ l, f a = some b := by
  intro l
  induction l with
  | nil =>
    intro b h
    simp [List.findSome?] at h
  | cons x xs ih =>
    intro b h
    rw [List.findSome?] at h
    cases hfx : f x with
    | some c =>
      rw [hfx] at h
      refine ⟨x, List.mem_cons_self x xs, ?_⟩
      rw [hfx]
      exact h
    | none =>
      rw [hfx] at h
      obtain ⟨a, ha, hfa⟩ := ih b h
      exact ⟨a, List.mem_cons_of_mem x ha, hfa⟩

theorem unitEdges_bound (st : WorkspaceState) :
    ∀ e ∈ unitEdges st,
      e.1 < st.allDocuments.length ∧ e.2 < st.allDocuments.length := by
  intro e he
  simp only [unitEdges, List.mem_flatMap, List.mem_filterMap,
    List.mem_range] at he
  obtain ⟨i, hi, targets, _, hj⟩ := he
  rw [Option.map_eq_some'] at hj
  obtain ⟨j, hj, rfl⟩ := hj
  obtain ⟨t, _, ht⟩ := exists_of_listFindSome _ _ _ hj
  exact ⟨hi, listPosition_lt _ _ _ ht⟩

/-- The adjacency function of the compilation-unit graph. -/
def unitAdj (st : WorkspaceState) : Nat → List Nat :=
  neighborsOf (unitEdges st)

theorem unitAdj_bound (st : WorkspaceState) :
    ∀ a b, b ∈ unitAdj st a → b ∈ List.range st.allDocuments.length := by
  intro a b hb
  rw [unitAdj, mem_neighborsOf_iff] at hb
  rw [List.mem_range]
  rcases hb with hb | hb
  · exact (unitEdges_bound st _ (dedupEdges_sub _ _ hb)).2
  · exact (unitEdges_bound st _ (dedupEdges_sub _ _ hb)).1

theorem unitAdj_symm (st : WorkspaceState) :
    ∀ a b, b ∈ unitAdj st a ↔ a ∈ unitAdj st b := by
  intro a b
  rw [unitAdj, mem_neighborsOf_iff, mem_neighborsOf_iff]
  tauto

/-- `compilation_unit` from src/db/workspace.rs lines 85-124: position of
the document in the set (`[]` if absent), DFS over the undirected edge
graph from that position, members mapped back to documents. -/
def compilation_unit (st : WorkspaceState) (document : Document) :
    List Document :=
  match listPosition st.allDocuments document with
  | none => []
  | some start =>
    (dfs (List.range st.allDocuments.length) (unitAdj st) [start] []).map
      (fun i => st.allDocuments.getD i 0)

/-- The predicate of `find_parent` (src/db/workspace.rs lines 127-135):
has a `document` environment, no explicit link resolving to
`subfiles.cls`. -/
def is_parent_candidate (st : WorkspaceState) (d : Document) : Bool :=
  st.hasDocumentEnvironment d &&
    !((st.explicitLinks d).filterMap ExplicitLink.as_component_name).any
      (fun name => name = "subfiles.cls")

/-- `find_parent` from src/db/workspace.rs lines 126-136. -/
def find_parent (st : WorkspaceState) (document : Document) :
    Option Document :=
  (compilation_unit st document).find? (is_parent_candidate st)

theorem compilation_unit_mem_iff (st : WorkspaceState)
    (hnd : st.allDocuments.Nodup) (d1 d2 : Document) (i1 i2 : Nat)
    (h1 : listPosition st.allDocuments d1 = some i1)
    (h2 : listPosition st.allDocuments d2 = some i2) :
    d2 ∈ compilation_unit st d1 ↔
      Relation.ReflTransGen (fun a b => b ∈ unitAdj st a) i1 i2 := by
  have hi1 : i1 ∈ List.range st.allDocuments.length :=
    List.mem_range.mpr (listPosition_lt _ _ _ h1)
  rw [compilation_unit, h1, List.mem_map]
  constructor
  · rintro ⟨j, hj, hget⟩
    have hjuniv : j ∈ List.range st.allDocuments.length := by
      refine dfs_sound _ _ (· ∈ List.range st.allDocuments.length)
        (fun a b _ hb => unitAdj_bound st a b hb) [i1] []
        (fun v hv => absurd hv (List.not_mem_nil v)) ?_ j hj
      intro s hs
      rw [List.mem_singleton.mp hs]
      exact hi1
    have hjlt : j < st.allDocuments.length := List.mem_range.mp hjuniv
    have hlp := listPosition_getD_nodup _ hnd j hjlt
    rw [hget, h2] at hlp
    obtain rfl : j = i2 := by
      have := hlp
      simp only [Option.some.injEq] at this
      omega
    rw [dfs_mem_iff _ _ (unitAdj_bound st) i1 hi1] at hj
    exact hj
  · intro hr
    refine ⟨i2, ?_, listPosition_getD _ _ _ h2⟩
    rw [dfs_mem_iff _ _ (unitAdj_bound st) i1 hi1]
    exact hr

/-- C5: compilation-unit membership is reflexive and symmetric on the
document set. -/
theorem compilation_unit_refl_symm (st : WorkspaceState) (d1 d2 : Document)
    (hnd : st.allDocuments.Nodup) (h1 : d1 ∈ st.allDocuments)
    (h2 : d2 ∈ st.allDocuments) :
    d1 ∈ compilation_unit st d1 ∧
      (d2 ∈ compilation_unit st d1 ↔ d1 ∈ compilation_unit st d2) := by
  obtain ⟨i1, hp1⟩ := Option.isSome_iff_exists.mp
    ((listPosition_isSome_iff _ _).mpr h1)
  obtain ⟨i2, hp2⟩ := Option.isSome_iff_exists.mp
    ((listPosition_isSome_iff _ _).mpr h2)
  have hsym : Symmetric (fun a b => b ∈ unitAdj st a) := by
    intro a b hab
    exact (unitAdj_symm st a b).mp hab
  refine ⟨?_, ?_⟩
  · rw [compilation_unit_mem_iff st hnd d1 d1 i1 i1 hp1 hp1]
  · rw [compilation_unit_mem_iff st hnd d1 d2 i1 i2 hp1 hp2,
      compilation_unit_mem_iff st hnd d2 d1 i2 i1 hp2 hp1]
    constructor
    · intro h
      exact Relation.ReflTransGen.symmetric hsym h
    · intro h
      exact Relation.ReflTransGen.symmetric hsym h

/-- A two-document workspace for the C5 witness: `0` links to `1`. -/
def sampleUnitState : WorkspaceState where
  allDocuments := [0, 1]
  auxTargets := fun _ => []
  logTargets := fun _ => []
  explicitLinks := fun d =>
    if d = 0 then [⟨"b", ⟨0, 1⟩, [1], .latex⟩] else []
  hasDocumentEnvironment := fun d => d == 0

theorem compilation_unit_refl_symm_witness :
    0 ∈ compilation_unit sampleUnitState 0 ∧
      (1 ∈ compilation_unit sampleUnitState 0 ↔
        0 ∈ compilation_unit sampleUnitState 1) :=
  compilation_unit_refl_symm sampleUnitState 0 1 (by decide) (by decide)
    (by decide)

/-- Modelled from the spec: parent selection scans the unit in order and
returns the first member that has a `document` environment and is not a
`subfiles.cls` client; absent when no member qualifies (§3, Parent(D)). -/
def first_qualifying_member (st : WorkspaceState) :
    List Document → Option Document
  | [] => none
  | d :: rest =>
    if is_parent_candidate st d then some d
    else first_qualifying_member st rest

/-- C9: `find_parent` returns exactly the first member of the compilation
unit, in unit order, satisfying the parent predicate, and `none` when no
member qualifies. -/
theorem find_parent_eq_first_qualifying (st : WorkspaceState)
    (document : Document) :
    find_parent st document =
      first_qualifying_member st (compilation_unit st document) := by
  rw [find_parent]
  generalize compilation_unit st document = l
  induction l with
  | nil => rfl
  | cons x xs ih =>
    rw [List.find?, first_qualifying_member]
    cases hx : is_parent_candidate st x <;> simp [hx, ih]

/-! ## C4 — ProjectOrdering
(src/features/symbol/project_order.rs) -/

/-- The emission DFS of `ProjectOrdering::from` (project_order.rs lines
30-52): pop, skip if already visited, otherwise emit and push every target
of every explicit link — links traversed in reverse — that is in the
document set.  The `d ∉ allDocuments` guard is dead code (the start is a
unit member and every push is filtered by set membership) and only serves
the termination measure. -/
def emitDfs (st : WorkspaceState) : List Document → List Document → List Document
  | [], visited => visited
  | d :: rest, visited =>
    if d ∈ visited ∨ d ∉ st.allDocuments then emitDfs st rest visited
    else
      emitDfs st
        (((st.explicitLinks d).reverse.flatMap fun link =>
          link.targets.filter fun t => decide (t ∈ st.allDocuments)).reverse
          ++ rest)
        (visited ++ [d])
termination_by stack visited =>
  ((st.allDocuments.filter (fun m => decide (m ∉ visited))).length,
    stack.length)
decreasing_by
  · apply Prod.Lex.right
    simp
  · apply Prod.Lex.left
    rename_i h
    push_neg at h
    exact filter_not_mem_append_lt st.allDocuments visited d h.2 h.1

theorem emitDfs_nil (st : WorkspaceState) (visited : List Document) :
    emitDfs st [] visited = visited := by
  rw [emitDfs]

theorem emitDfs_skip (st : WorkspaceState) (d : Document)
    (rest visited : List Document) (h : d ∈ visited ∨ d ∉ st.allDocuments) :
    emitDfs st (d :: rest) visited = emitDfs st rest visited := by
  rw [emitDfs, if_pos h]

theorem emitDfs_visit (st : WorkspaceState) (d : Document)
    (rest visited : List Document) (h1 : d ∉ visited)
    (h2 : d ∈ st.allDocuments) :
    emitDfs st (d :: rest) visited =
      emitDfs st
        (((st.explicitLinks d).reverse.flatMap fun link =>
          link.targets.filter fun t => decide (t ∈ st.allDocuments)).reverse
          ++ rest)
        (visited ++ [d]) := by
  rw [emitDfs, if_neg (by simp [h1, h2])]

/-- `connected_components` (project_order.rs lines 59-73): iterate the
document set; for every document not yet visited, emit its compilation
unit and mark the unit visited. -/
def connected_components_aux (st : WorkspaceState) :
    List Document → List Document → List (List Document)
  | [], _ => []
  | root :: rest, visited =>
    if root ∈ visited then connected_components_aux st rest visited
    else
      compilation_unit st root ::
        connected_components_aux st rest
          ((root :: visited) ++ compilation_unit st root)

def connected_components (st : WorkspaceState) : List (List Document) :=
  connected_components_aux st st.allDocuments []

/-- `build_dependency_graph` (project_order.rs lines 75-104): for document
`i` of the unit and each of its explicit links, an edge from the first
target found in the unit to `i` (`break` after the first hit). -/
def build_dependency_graph (st : WorkspaceState)
    (documents : List Document) : List (Nat × Nat) :=
  (List.range documents.length).flatMap fun i =>
    (st.explicitLinks (documents.getD i 0)).filterMap fun link =>
      (link.targets.findSome? fun target => listPosition documents target).map
        fun j => (j, i)

/-- Directed adjacency of a petgraph `Graph` edge list. -/
def adjDirOf (edges : List (Nat × Nat)) (n : Nat) : List Nat :=
  edges.filterMap fun e => if e.1 = n then some e.2 else none

/-- Mutual reachability in the directed dependency graph. -/
def sccSame (univ : List Nat) (adj : Nat → List Nat) (i j : Nat) : Bool :=
  (dfs univ adj [i] []).contains j && (dfs univ adj [j] []).contains i

/-- Modelled from the spec: petgraph's `tarjan_scc` lists strongly
connected components in reverse topological order, so
`tarjan_scc(&graph)[0][0]` lies in a sink component (no edge leaves it);
we select the smallest node index lying in a sink component.  In the
analysed scenario the sink component is unique, so every conforming
enumeration yields this node. -/
def sccRootIndex (numNodes : Nat) (edges : List (Nat × Nat)) : Nat :=
  ((List.range numNodes).find? fun i =>
    edges.all fun e =>
      !sccSame (List.range numNodes) (adjDirOf edges) i e.1 ||
        sccSame (List.range numNodes) (adjDirOf edges) i e.2).getD 0

structure ProjectOrdering where
  ordering : List Document

/-- Rust `usize::MAX` on a 64-bit target. -/
def usizeMax : Nat := 2 ^ 64 - 1

/-- `ProjectOrdering::get`: position in the ordering, `usize::MAX` when
absent. -/
def ProjectOrdering.get (po : ProjectOrdering) (document : Document) : Nat :=
  match listPosition po.ordering document with
  | some i => i
  | none => usizeMax

/-- `impl From<&RootDatabase> for ProjectOrdering` (project_order.rs lines
22-57): per component, build the dependency graph, pick the root via
Tarjan SCC, and run the emission DFS from it. -/
def project_ordering (st : WorkspaceState) : ProjectOrdering :=
  ⟨(connected_components st).flatMap fun comp =>
    emitDfs st
      [comp.getD (sccRootIndex comp.length (build_dependency_graph st comp)) 0]
      []⟩

/-- The spec's scenario: `a.tex = "\x5cinclude\x7bb\x7d\x5cinclude\x7bc\x7d"`,
`b.tex = ""`, `c.tex = ""`.  Handles: `a.tex = 0`, `b.tex = 1`,
`c.tex = 2`.  Modelled from the spec: the LaTeX parse of `a.tex` yields two
explicit links with candidate targets `[stem, stem.tex]`; the interned
extension-less candidates are the fresh handles 3 and 4, the aux/log
candidates the fresh handles `10+d` / `20+d`, none of them in the
document set. -/
def c4State : WorkspaceState where
  allDocuments := [0, 1, 2]
  auxTargets := fun d => [10 + d]
  logTargets := fun d => [20 + d]
  explicitLinks := fun d =>
    if d = 0 then
      [⟨"b", ⟨9, 10⟩, [3, 1], .latex⟩, ⟨"c", ⟨20, 21⟩, [4, 2], .latex⟩]
    else []
  hasDocumentEnvironment := fun _ => false

theorem c4_unit_eval : compilation_unit c4State 0 = [0, 2, 1] := by
  have e1 : dfs (List.range 3) (unitAdj c4State) [0] [] =
      dfs (List.range 3) (unitAdj c4State) [2, 1] [0] := by
    rw [dfs_visit _ _ _ _ _ (by decide) (by decide)]
    rfl
  have e2 : dfs (List.range 3) (unitAdj c4State) [2, 1] [0] =
      dfs (List.range 3) (unitAdj c4State) [1] [0, 2] := by
    rw [dfs_visit _ _ _ _ _ (by decide) (by decide)]
    rfl
  have e3 : dfs (List.range 3) (unitAdj c4State) [1] [0, 2] =
      dfs (List.range 3) (unitAdj c4State) [] [0, 2, 1] := by
    rw [dfs_visit _ _ _ _ _ (by decide) (by decide)]
    rfl
  show (dfs (List.range 3) (unitAdj c4State) [0] []).map
      (fun i => c4State.allDocuments.getD i 0) = [0, 2, 1]
  rw [e1, e2, e3, dfs_nil]
  rfl

theorem c4_comps_eval : connected_components c4State = [[0, 2, 1]] := by
  rw [connected_components]
  show connected_components_aux c4State [0, 1, 2] [] = [[0, 2, 1]]
  rw [connected_components_aux, if_neg (by decide), c4_unit_eval,
    connected_components_aux, if_pos (by decide),
    connected_components_aux, if_pos (by decide),
    connected_components_aux]

theorem c4_dep_eval :
    build_dependency_graph c4State [0, 2, 1] = [(2, 0), (1, 0)] := by
  decide

theorem c4_reach0 : dfs [0, 1, 2] (adjDirOf [(2, 0), (1, 0)]) [0] [] = [0] := by
  have e1 : dfs [0, 1, 2] (adjDirOf [(2, 0), (1, 0)]) [0] [] =
      dfs [0, 1, 2] (adjDirOf [(2, 0), (1, 0)]) [] [0] := by
    rw [dfs_visit _ _ _ _ _ (by decide) (by decide)]
    rfl
  rw [e1, dfs_nil]

theorem c4_reach1 :
    dfs [0, 1, 2] (adjDirOf [(2, 0), (1, 0)]) [1] [] = [1, 0] := by
  have e1 : dfs [0, 1, 2] (adjDirOf [(2, 0), (1, 0)]) [1] [] =
      dfs [0, 1, 2] (adjDirOf [(2, 0), (1, 0)]) [0] [1] := by
    rw [dfs_visit _ _ _ _ _ (by decide) (by decide)]
    rfl
  have e2 : dfs [0, 1, 2] (adjDirOf [(2, 0), (1, 0)]) [0] [1] =
      dfs [0, 1, 2] (adjDirOf [(2, 0), (1, 0)]) [] [1, 0] := by
    rw [dfs_visit _ _ _ _ _ (by decide) (by decide)]
    rfl
  rw [e1, e2, dfs_nil]

theorem c4_reach2 :
    dfs [0, 1, 2] (adjDirOf [(2, 0), (1, 0)]) [2] [] = [2, 0] := by
  have e1 : dfs [0, 1, 2] (adjDirOf [(2, 0), (1, 0)]) [2] [] =
      dfs [0, 1, 2] (adjDirOf [(2, 0), (1, 0)]) [0] [2] := by
    rw [dfs_visit _ _ _ _ _ (by decide) (by decide)]
    rfl
  have e2 : dfs [0, 1, 2] (adjDirOf [(2, 0), (1, 0)]) [0] [2] =
      dfs [0, 1, 2] (adjDirOf [(2, 0), (1, 0)]) [] [2, 0] := by
    rw [dfs_visit _ _ _ _ _ (by decide) (by decide)]
    rfl
  rw [e1, e2, dfs_nil]

theorem c4_scc_eval : sccRootIndex 3 [(2, 0), (1, 0)] = 0 := by
  have hp0 : ([(2, 0), (1, 0)] : List (Nat × Nat)).all (fun e =>
      !sccSame [0, 1, 2] (adjDirOf [(2, 0), (1, 0)]) 0 e.1 ||
        sccSame [0, 1, 2] (adjDirOf [(2, 0), (1, 0)]) 0 e.2) = true := by
    simp only [List.all_cons, List.all_nil, sccSame, c4_reach0, c4_reach1,
      c4_reach2]
    decide
  rw [sccRootIndex, (by decide : List.range 3 = [0, 1, 2])]
  rw [List.find?]
  simp only [hp0]
  rfl

theorem c4_emit_eval : emitDfs c4State [0] [] = [0, 1, 2] := by
  have e1 : emitDfs c4State [0] [] = emitDfs c4State [1, 2] [0] := by
    rw [emitDfs_visit _ _ _ _ (by decide) (by decide)]
    rfl
  have e2 : emitDfs c4State [1, 2] [0] = emitDfs c4State [2] [0, 1] := by
    rw [emitDfs_visit _ _ _ _ (by decide) (by decide)]
    rfl
  have e3 : emitDfs c4State [2] [0, 1] = emitDfs c4State [] [0, 1, 2] := by
    rw [emitDfs_visit _ _ _ _ (by decide) (by decide)]
    rfl
  rw [e1, e2, e3, emitDfs_nil]

theorem c4_ordering_eval : (project_ordering c4State).ordering = [0, 1, 2] := by
  rw [project_ordering, c4_comps_eval]
  show emitDfs c4State
      [[0, 2, 1].getD
        (sccRootIndex 3 (build_dependency_graph c4State [0, 2, 1])) 0] [] ++
      [] = [0, 1, 2]
  rw [c4_dep_eval, c4_scc_eval]
  show emitDfs c4State [0] [] ++ [] = [0, 1, 2]
  rw [c4_emit_eval]
  rfl

/-- C4 as stated fails: for `a.tex = "\x5cinclude\x7bb\x7d\x5cinclude\x7bc\x7d"`
the ordering is not `get(b)=2, get(c)=1` — the second include does not sort
before the first. -/
theorem project_ordering_claim_counterexample :
    ¬((project_ordering c4State).get 0 = 0 ∧
      (project_ordering c4State).get 1 = 2 ∧
      (project_ordering c4State).get 2 = 1) := by
  rintro ⟨_, hb, _⟩
  rw [ProjectOrdering.get, c4_ordering_eval] at hb
  exact absurd hb (by decide)

/-- C4 (amended): for the scenario the ordering satisfies `get(a)=0`,
`get(b)=1`, `get(c)=2`.  Explicit links are traversed in reverse order
while being pushed onto a LIFO stack, so the depth-first emission yields
the root first and then the includes in source order. -/
theorem project_ordering_scenario :
    (project_ordering c4State).get 0 = 0 ∧
      (project_ordering c4State).get 1 = 1 ∧
      (project_ordering c4State).get 2 = 2 := by
  refine ⟨?_, ?_, ?_⟩ <;>
    · rw [ProjectOrdering.get, c4_ordering_eval]
      decide

/-! ## C10 — diagnostics dispatch
(src/db/diag.rs `diagnostics`, src/db/diag/build_log.rs
`analyze_build_log_static`) -/

/-- The database slice observed by the diagnostics query: the workspace
graph, and per document its language, URI string, URI path, syntax tree,
and the URL-join operation.  `uriJoin` is modelled from the spec: the url
crate's `Url::join` followed by interning (`none` = join error). -/
structure DiagState where
  ws : WorkspaceState
  language : Document → DocumentLanguage
  uriString : Document → String
  uriPath : Document → String
  syntaxTree : Document → SyntaxTree
  uriJoin : Document → String → Option Document

/-- Modelled from the spec: `PathBuf::join` — an absolute right operand
replaces the base, otherwise it is appended. -/
def pathJoin (base rel : String) : String :=
  if strStartsWithChar rel '/' then rel else base ++ "/" ++ rel

/-- Modelled from the spec: `Path::starts_with`. -/
def pathStartsWith (p base : String) : Bool :=
  base.toList.isPrefixOf p.toList

/-- `diag_map.entry(child).or_default().push_back(diag)` on the assoc-list
model of `im::HashMap<Document, im::Vector<Diagnostic>>`. -/
def mapPush (m : List (Document × List Diagnostic)) (k : Document)
    (v : Diagnostic) : List (Document × List Diagnostic) :=
  match m with
  | [] => [(k, [v])]
  | (k2, vs) :: rest =>
    if k2 = k then (k2, vs ++ [v]) :: rest else (k2, vs) :: mapPush rest k v

/-- `analyze_build_log_static` from src/db/diag/build_log.rs lines 12-70.
For a build-log tree, find the first `.aux` member of the unit whose
linked log files contain this document; translate every parsed error into
a diagnostic keyed by the error's path resolved against the aux file
(falling back to the aux owner).  The `range` field stands for the
line/column pair `Position::new(error.line.unwrap_or(0), 0)` used twice. -/
def analyze_build_log_static (st : DiagState) (document : Document) :
    List (Document × List Diagnostic) :=
  match st.syntaxTree document with
  | .buildLog errors =>
    match (compilation_unit st.ws document).find? (fun root =>
        strEndsWithStr (st.uriString root) ".aux" &&
          (st.ws.logTargets root).contains document) with
    | none => []
    | some root_document =>
      let base_path := st.uriPath root_document
      errors.foldl (fun m error =>
        let pos := error.line.getD 0
        let severity := match error.level with
          | BuildErrorLevel.error => DiagnosticSeverity.error
          | BuildErrorLevel.warning => DiagnosticSeverity.warning
        let diag : Diagnostic := ⟨⟨pos, pos⟩, severity, none, "latex",
          error.message⟩
        let full_path := pathJoin base_path error.relative_path
        let child :=
          if pathStartsWith full_path base_path then
            (st.uriJoin root_document error.relative_path).getD root_document
          else root_document
        mapPush m child diag) []
  | _ => []

/-- `diagnostics` from src/db/diag.rs lines 17-34: a singleton map for
LaTeX and BibTeX documents, the build-log analysis otherwise. -/
def diagnostics (st : DiagState) (document : Document) :
    List (Document × List Diagnostic) :=
  match st.language document with
  | .latex =>
    [(document,
      analyze_latex_static (st.uriString document) (st.syntaxTree document))]
  | .bibtex =>
    [(document,
      match st.syntaxTree document with
      | .bibtex root => analyze_bibtex_static root
      | _ => [])]
  | .buildLog => analyze_build_log_static st document

/-- C10: LaTeX/BibTeX documents produce a map keyed exactly by themselves;
only build-log documents can key diagnostics to other documents; a
build-log document with no `.aux` unit member linking back to it yields an
empty map. -/
theorem diagnostics_keys (st : DiagState) (document : Document) :
    ((st.language document = .latex ∨ st.language document = .bibtex) →
        (diagnostics st document).map Prod.fst = [document]) ∧
      (st.language document ≠ .buildLog →
        ∀ k ∈ (diagnostics st document).map Prod.fst, k = document) ∧
      (st.language document = .buildLog →
        (¬ ∃ root ∈ compilation_unit st.ws document,
            strEndsWithStr (st.uriString root) ".aux" = true ∧
              (st.ws.logTargets root).contains document = true) →
          diagnostics st document = []) := by
  refine ⟨?_, ?_, ?_⟩
  · rintro (h | h) <;> simp [diagnostics, h]
  · intro h k hk
    cases hl : st.language document with
    | latex =>
      simp [diagnostics, hl] at hk
      exact hk
    | bibtex =>
      simp [diagnostics, hl] at hk
      exact hk
    | buildLog => exact absurd hl h
  · intro hl hno
    have hfind : (compilation_unit st.ws document).find? (fun root =>
        strEndsWithStr (st.uriString root) ".aux" &&
          (st.ws.logTargets root).contains document) = none := by
      rw [List.find?_eq_none]
      intro root hroot hp
      apply hno
      refine ⟨root, hroot, ?_⟩
      simpa using hp
    rw [diagnostics]
    rw [hl]
    rw [analyze_build_log_static]
    cases htree : st.syntaxTree document with
    | buildLog errors => rw [hfind]
    | latex root => rfl
    | bibtex root => rfl

/-- Sample state for the C10 witness: document 0 is LaTeX, document 1 a
build log outside the document set. -/
def sampleDiagState : DiagState where
  ws := ⟨[], fun _ => [], fun _ => [], fun _ => [], fun _ => false⟩
  language := fun d => if d = 0 then .latex else .buildLog
  uriString := fun _ => "a.tex"
  uriPath := fun _ => "/a"
  syntaxTree := fun _ => .buildLog [⟨.error, "msg", some 1, "b.tex"⟩]
  uriJoin := fun _ _ => none

theorem diagnostics_keys_witness :
    (diagnostics sampleDiagState 0).map Prod.fst = [0] ∧
      diagnostics sampleDiagState 1 = [] :=
  ⟨(diagnostics_keys sampleDiagState 0).1 (Or.inl rfl),
    (diagnostics_keys sampleDiagState 1).2.2 rfl (by
      simp [compilation_unit, listPosition])⟩
